import Mathlib

/-!
Shallow embedding of the multi-view graph extraction engine of the
georgievi-network repository, together with proofs checking the
natural-language specification against the embedded code.

The Python sources embedded here are:
* `network_analysis.py` — correspondent view (`show_network_analysis`,
  lines 69–85: edge accumulation and the minimum-connections filter);
* `geographical_network.py` — geographic co-mention view
  (`extract_place_connections`);
* `comodity_analysis.py` — commodity–place bipartite view
  (`extract_commodity_place_data`, `show_commodity_network`);
* `topics_keywords_analysis.py` — topic/keyword co-occurrence view
  (`extract_topics_keywords_data`);
* `temporal_analysis.py` — date parsing (`extract_temporal_data`) and the
  temporal windowed view (`show_static_temporal_network`).

Python `dict`/`Counter` objects are embedded as insertion-ordered
association lists (`List (α × Nat)`) updated by `bump`; Python sets are
embedded as first-insertion-ordered duplicate-free lists built with
`insertNode` (CPython set iteration order is unspecified, so only
membership and counts are meaningful, which is all the theorems use).
Optional strings are `Option String` with Python truthiness `truthy`
(`None` and `""` are falsy).  `datetime` values are `Date` triples with
the proleptic-Gregorian ordinal `toOrdinal` (as in `datetime.toordinal`).
-/

/-- Python truthiness of an optional string: `None` and `""` are falsy. -/
def truthy : Option String → Bool
  | none => false
  | some s => s ≠ ""

/-- The string value of an optional string (meaningful when `truthy`). -/
def getStr (s : Option String) : String := s.getD ""

/-- Python `str.strip()`: drop leading and trailing whitespace. -/
def pyStrip (s : String) : String :=
  ⟨((s.data.dropWhile Char.isWhitespace).reverse.dropWhile Char.isWhitespace).reverse⟩

/-- One `mentioned_places` entry (the coordinate attributes feed only the
rendering layer and are not used by any graph construction embedded here,
so only the `name` field is carried). -/
structure MentionedPlace where
  name : Option String
  deriving DecidableEq, Repr

/-- One correspondence record as produced by `load_data` in `app.py`
(fields not consumed by any embedded extractor are omitted). -/
structure Record where
  sender_name : Option String := none
  sender_place : Option String := none
  sender_date : Option String := none
  addressee_name : Option String := none
  addressee_place : Option String := none
  main_topics : List (Option String) := []
  keywords : List (Option String) := []
  mentioned_places : List MentionedPlace := []
  deriving DecidableEq, Repr

/-! ### Counters (Python `dict` / `collections.Counter`) -/

/-- `bump k n c` embeds `c[k] += n` on an insertion-ordered dict. -/
def bump [DecidableEq α] (k : α) (n : Nat) : List (α × Nat) → List (α × Nat)
  | [] => [(k, n)]
  | (k', m) :: rest => if k' = k then (k, m + n) :: rest else (k', m) :: bump k n rest

/-- Total count stored for key `k` (summing, so it is well defined on any
association list, and agrees with dict lookup on `bump`-built ones). -/
def cnt [DecidableEq α] : List (α × Nat) → α → Nat
  | [], _ => 0
  | (k', n) :: rest, k => (if k' = k then n else 0) + cnt rest k

/-- `Counter(xs)`: count every element of a list. -/
def counterOf [DecidableEq α] (xs : List α) : List (α × Nat) :=
  xs.foldl (fun c k => bump k 1 c) []

theorem cnt_bump [DecidableEq α] (k k' : α) (n : Nat) (c : List (α × Nat)) :
    cnt (bump k n c) k' = cnt c k' + (if k = k' then n else 0) := by
  induction c with
  | nil => simp [bump, cnt]
  | cons e rest ih =>
    obtain ⟨k₀, m⟩ := e
    by_cases h : k₀ = k
    · simp only [bump, if_pos h, cnt, ih, h]
      split_ifs <;> omega
    · simp only [bump, if_neg h, cnt, ih]
      split_ifs <;> omega

theorem mem_map_fst_bump [DecidableEq α] {y k : α} {n : Nat} {c : List (α × Nat)} :
    y ∈ (bump k n c).map Prod.fst ↔ y = k ∨ y ∈ c.map Prod.fst := by
  induction c with
  | nil => simp [bump]
  | cons e₀ rest ih =>
    obtain ⟨k₀, m⟩ := e₀
    by_cases hk : k₀ = k
    · subst hk
      simp [bump]
    · simp only [bump, if_neg hk, List.map_cons, List.mem_cons, ih]
      tauto

theorem fst_mem_bump [DecidableEq α] {e : α × Nat} {k : α} {n : Nat}
    {c : List (α × Nat)} (h : e ∈ bump k n c) : e.1 = k ∨ e.1 ∈ c.map Prod.fst :=
  mem_map_fst_bump.1 (List.mem_map_of_mem Prod.fst h)

theorem cnt_counterOf_fold [DecidableEq α] (xs : List α) (c : List (α × Nat)) (k : α) :
    cnt (xs.foldl (fun c x => bump x 1 c) c) k = cnt c k + xs.count k := by
  induction xs generalizing c with
  | nil => simp
  | cons x rest ih =>
    simp only [List.foldl_cons, ih, cnt_bump, List.count_cons]
    by_cases h : x = k
    · simp [h]; omega
    · have : ¬ (k = x) := fun hk => h hk.symm
      simp [h, beq_iff_eq, this]

theorem cnt_counterOf [DecidableEq α] (xs : List α) (k : α) :
    cnt (counterOf xs) k = xs.count k := by
  have := cnt_counterOf_fold xs [] k
  simpa [counterOf, cnt] using this

theorem fst_mem_counterOf_fold [DecidableEq α] {xs : List α} {c : List (α × Nat)}
    {e : α × Nat} (h : e ∈ xs.foldl (fun c x => bump x 1 c) c) :
    e.1 ∈ xs ∨ e.1 ∈ c.map Prod.fst := by
  induction xs generalizing c with
  | nil => simp at h; right; exact List.mem_map_of_mem Prod.fst h
  | cons x rest ih =>
    simp only [List.foldl_cons] at h
    rcases ih h with h' | h'
    · simp [h']
    · rcases mem_map_fst_bump.1 h' with h₂ | h₂
      · left; simp [h₂]
      · right; exact h₂

/-! ### Node lists (NetworkX implicit node insertion, Python sets) -/

/-- Add a node unless already present (set insertion / `nx.add_node`). -/
def insertNode (ns : List String) (x : String) : List String :=
  if ns.contains x then ns else ns ++ [x]

theorem mem_insertNode {ns : List String} {x y : String} :
    y ∈ insertNode ns x ↔ y ∈ ns ∨ y = x := by
  by_cases h : x ∈ ns
  · have hc : insertNode ns x = ns := by simp [insertNode, h]
    rw [hc]
    constructor
    · exact Or.inl
    · rintro (hy | rfl)
      · exact hy
      · exact h
  · have hc : insertNode ns x = ns ++ [x] := by simp [insertNode, h]
    rw [hc]
    simp [List.mem_append]

/-- The node list a NetworkX graph acquires from a sequence of
`add_edge(u, v)` calls: endpoints in order of first appearance. -/
def nodesOf (es : List ((String × String) × Nat)) : List String :=
  es.foldl (fun ns e => insertNode (insertNode ns e.1.1) e.1.2) []

theorem mem_nodesOf_fold {es : List ((String × String) × Nat)} {ns : List String}
    {x : String} :
    x ∈ es.foldl (fun ns e => insertNode (insertNode ns e.1.1) e.1.2) ns ↔
      x ∈ ns ∨ ∃ e ∈ es, x = e.1.1 ∨ x = e.1.2 := by
  induction es generalizing ns with
  | nil => simp
  | cons e rest ih =>
    simp only [List.foldl_cons, ih, mem_insertNode, List.mem_cons]
    constructor
    · rintro (((h | h) | h) | ⟨e', he', h⟩)
      · exact Or.inl h
      · exact Or.inr ⟨e, Or.inl rfl, Or.inl h⟩
      · exact Or.inr ⟨e, Or.inl rfl, Or.inr h⟩
      · exact Or.inr ⟨e', Or.inr he', h⟩
    · rintro (h | ⟨e', (rfl | he'), h⟩)
      · tauto
      · tauto
      · exact Or.inr ⟨e', he', h⟩

theorem mem_nodesOf {es : List ((String × String) × Nat)} {x : String} :
    x ∈ nodesOf es ↔ ∃ e ∈ es, x = e.1.1 ∨ x = e.1.2 := by
  simpa [nodesOf] using (@mem_nodesOf_fold es [] x)

/-! ### Directed weighted graphs and the degree filter -/

/-- A directed weighted graph: explicit node list plus an
insertion-ordered edge-weight dict. -/
structure DiGraph where
  nodes : List String
  edges : List ((String × String) × Nat)
  deriving DecidableEq, Repr

/-- `G.in_degree(x) + G.out_degree(x)` of a NetworkX `DiGraph` whose
edge dict is `es` (a self-loop contributes to both terms). -/
def totalDegree (es : List ((String × String) × Nat)) (x : String) : Nat :=
  es.countP (fun e => e.1.1 == x) + es.countP (fun e => e.1.2 == x)

/-- The minimum-connections filter of `show_network_analysis`
(`network_analysis.py` lines 82–85): keep nodes whose total degree meets
the threshold, then take the induced subgraph. -/
def degreeFilter (G : DiGraph) (minConnections : Nat) : DiGraph :=
  let keep := G.nodes.filter (fun x => minConnections ≤ totalDegree G.edges x)
  ⟨keep, G.edges.filter (fun e => keep.contains e.1.1 && keep.contains e.1.2)⟩

/-! ### Correspondent view (`show_network_analysis`, lines 69–80) -/

/-- The `edge_weights` dict of `show_network_analysis`: for every record
whose `sender_name` and `addressee_name` are truthy, `+1` on the ordered
key `(sender, addressee)` — note the names are used verbatim, untrimmed. -/
def correspondent_edge_weights (data : List Record) : List ((String × String) × Nat) :=
  data.foldl (fun ew entry =>
    if truthy entry.sender_name && truthy entry.addressee_name then
      bump (getStr entry.sender_name, getStr entry.addressee_name) 1 ew
    else ew) []

/-- The directed graph `G` built by `show_network_analysis` before
filtering: one `add_edge` per `edge_weights` item. -/
def correspondentGraph (data : List Record) : DiGraph :=
  ⟨nodesOf (correspondent_edge_weights data), correspondent_edge_weights data⟩

example :
    correspondentGraph [{ sender_name := some "X", addressee_name := some "Y" },
                        { sender_name := some "X", addressee_name := some "Y" },
                        { sender_name := some "Y", addressee_name := some "X" }] =
      ⟨["X", "Y"], [(("X", "Y"), 2), (("Y", "X"), 1)]⟩ := by decide

/-! ### Date Normalizer (`extract_temporal_data`, `temporal_analysis.py` 51–67)

`datetime.strptime` with the fixed-format list
`["%d.%m.%Y", "%d/%m/%Y", "%Y-%m-%d", "%d-%m-%Y"]`: each format is three
numeric fields joined by a literal separator, matched against the whole
string; `%d`/`%m` accept one or two digits within their ranges, `%Y`
exactly four digits; the resulting calendar date must be valid. -/

structure Date where
  year : Nat
  month : Nat
  day : Nat
  deriving DecidableEq, Repr

def isLeap (y : Nat) : Bool := y % 4 == 0 && (y % 100 != 0 || y % 400 == 0)

def daysInMonth (y m : Nat) : Nat :=
  if m = 2 then (if isLeap y then 29 else 28)
  else if m = 4 || m = 6 || m = 9 || m = 11 then 30
  else 31

/-- `datetime.toordinal()`: day number in the proleptic Gregorian
calendar, with 0001-01-01 as day 1. -/
def toOrdinal (d : Date) : Nat :=
  let py := d.year - 1
  let daysBeforeYear := 365 * py + py / 4 - py / 100 + py / 400
  let daysBeforeMonth :=
    (List.range (d.month - 1)).foldl (fun acc i => acc + daysInMonth d.year (i + 1)) 0
  daysBeforeYear + daysBeforeMonth + d.day

/-- Split a character list on a separator (used to match the three
fields of a fixed date format). -/
def splitSep (sep : Char) : List Char → List (List Char) → List Char → List (List Char)
  | [], acc, cur => (acc ++ [cur.reverse])
  | c :: rest, acc, cur =>
    if c = sep then splitSep sep rest (acc ++ [cur.reverse]) []
    else splitSep sep rest acc (c :: cur)

def splitFields (sep : Char) (s : String) : List (List Char) :=
  splitSep sep s.data [] []

def natOfDigits (l : List Char) : Nat :=
  l.foldl (fun n c => n * 10 + (c.toNat - 48)) 0

/-- A one- or two-digit numeric field constrained to `[lo, hi]`
(the CPython `_strptime` regexes for `%d` and `%m`). -/
def parseField2 (l : List Char) (lo hi : Nat) : Option Nat :=
  if l ≠ [] && l.length ≤ 2 && l.all Char.isDigit
      && lo ≤ natOfDigits l && natOfDigits l ≤ hi then
    some (natOfDigits l)
  else none

/-- An exactly-four-digit year field; `datetime` requires year ≥ 1. -/
def parseYear4 (l : List Char) : Option Nat :=
  if l.length == 4 && l.all Char.isDigit && 1 ≤ natOfDigits l then
    some (natOfDigits l)
  else none

/-- `datetime(year, month, day)` construction: the day must exist in the
given month. -/
def mkDate (y m d : Nat) : Option Date :=
  if d ≤ daysInMonth y m then some ⟨y, m, d⟩ else none

/-- One `strptime` attempt with a day–month–year format (`%d sep %m sep %Y`). -/
def parseDMY (sep : Char) (s : String) : Option Date :=
  match splitFields sep s with
  | [df, mf, yf] =>
    match parseField2 df 1 31, parseField2 mf 1 12, parseYear4 yf with
    | some d, some m, some y => mkDate y m d
    | _, _, _ => none
  | _ => none

/-- One `strptime` attempt with the `%Y-%m-%d` format. -/
def parseYMD (s : String) : Option Date :=
  match splitFields '-' s with
  | [yf, mf, df] =>
    match parseYear4 yf, parseField2 mf 1 12, parseField2 df 1 31 with
    | some y, some m, some d => mkDate y m d
    | _, _, _ => none
  | _ => none

/-- The date-format loop of `extract_temporal_data`: strip the input,
try `%d.%m.%Y`, `%d/%m/%Y`, `%Y-%m-%d`, `%d-%m-%Y` in that order, and
return the first successful parse (`none` plays the `DateUnparseable`
role: the caller skips the record). -/
def strptimeFirst (s : String) : Option Date :=
  let t := pyStrip s
  (parseDMY '.' t) <|> (parseDMY '/' t) <|> (parseYMD t) <|> (parseDMY '-' t)

example : strptimeFirst "01.01.1800" = some ⟨1800, 1, 1⟩ := by decide
example : strptimeFirst " 15.01.1800 " = some ⟨1800, 1, 15⟩ := by decide
example : strptimeFirst "10-02-1800" = some ⟨1800, 2, 10⟩ := by decide
example : strptimeFirst "1800-02-10" = some ⟨1800, 2, 10⟩ := by decide
example : strptimeFirst "31.02.1800" = none := by decide
example : strptimeFirst "yesterday" = none := by decide

/-! ### Temporal view (`extract_temporal_data`, `show_static_temporal_network`) -/

/-- One entry of the `letters` list built by `extract_temporal_data`
(presentation-only fields omitted): names are stripped here, dates parsed. -/
structure Letter where
  sender : String
  addressee : String
  date : Date
  deriving DecidableEq, Repr

/-- Stable ascending insertion by parsed date (equal dates keep their
original relative order, as Python's stable `list.sort`). -/
def insertByDate (x : Letter) : List Letter → List Letter
  | [] => [x]
  | y :: rest =>
    if toOrdinal x.date < toOrdinal y.date then x :: y :: rest
    else y :: insertByDate x rest

def sortByDate (ls : List Letter) : List Letter :=
  ls.foldl (fun acc x => insertByDate x acc) []

theorem mem_insertByDate {x y : Letter} {ls : List Letter} :
    y ∈ insertByDate x ls ↔ y = x ∨ y ∈ ls := by
  induction ls with
  | nil => simp [insertByDate]
  | cons z rest ih =>
    by_cases h : toOrdinal x.date < toOrdinal z.date
    · simp [insertByDate, h]
    · simp only [insertByDate, if_neg h, List.mem_cons, ih]
      tauto

theorem mem_sortByDate_fold {ls acc : List Letter} {y : Letter} :
    y ∈ ls.foldl (fun acc x => insertByDate x acc) acc ↔ y ∈ acc ∨ y ∈ ls := by
  induction ls generalizing acc with
  | nil => simp
  | cons x rest ih =>
    simp only [List.foldl_cons, ih, mem_insertByDate, List.mem_cons]
    tauto

theorem mem_sortByDate {ls : List Letter} {y : Letter} :
    y ∈ sortByDate ls ↔ y ∈ ls := by
  simp [sortByDate, mem_sortByDate_fold]

/-- `extract_temporal_data` (minus the presentation statistics): keep
records with truthy sender, addressee and date string whose date parses,
strip the names, and sort ascending by date. -/
def extract_temporal_data (data : List Record) : List Letter :=
  sortByDate (data.foldl (fun ls entry =>
    if truthy entry.sender_name && truthy entry.addressee_name
        && truthy entry.sender_date then
      match strptimeFirst (getStr entry.sender_date) with
      | some d =>
          ls ++ [⟨pyStrip (getStr entry.sender_name),
                  pyStrip (getStr entry.addressee_name), d⟩]
      | none => ls
    else ls) [])

/-- The window filter of `show_static_temporal_network`
(`temporal_analysis.py` 270–279): the closed interval
`[center - window_size // 2, center + window_size // 2]` in days. -/
def windowed_letters (letters : List Letter) (center : Date) (windowSize : Nat) :
    List Letter :=
  let ws : Int := (toOrdinal center : Int) - (windowSize / 2 : Nat)
  let we : Int := (toOrdinal center : Int) + (windowSize / 2 : Nat)
  letters.filter (fun l =>
    decide (ws ≤ (toOrdinal l.date : Int)) && decide ((toOrdinal l.date : Int) ≤ we))

/-- The windowed directed graph (`temporal_analysis.py` 286–296): count
`(sender, addressee)` pairs of the windowed letters, one `add_edge` per
counted pair. -/
def windowed_graph (letters : List Letter) (center : Date) (windowSize : Nat) :
    DiGraph :=
  let ec := counterOf ((windowed_letters letters center windowSize).map
    (fun l => (l.sender, l.addressee)))
  ⟨nodesOf ec, ec⟩

/-! ### Geographic co-mention view (`extract_place_connections`,
`geographical_network.py` 59–99)

The code collects `current_letter_places` as a *list* (sender place,
addressee place, each named mentioned place, in that order, without
deduplication) and then, for every index pair `i < j` whose values
differ, increments the Counter at the *ordered* key
`(places[i], places[j])`; finally, when sender and addressee places are
both truthy and differ, it adds a separate `+2` at
`(sender_place, addressee_place)`. -/

/-- The `current_letter_places` list of one record. -/
def current_letter_places (entry : Record) : List String :=
  (if truthy entry.sender_place then [getStr entry.sender_place] else []) ++
  (if truthy entry.addressee_place then [getStr entry.addressee_place] else []) ++
  (entry.mentioned_places.filterMap
    (fun p => if truthy p.name then some (getStr p.name) else none))

/-- The inner loop `for j ...` of the pairwise accumulation, for a fixed
first element `p` (Python `i < j` row): `+1` at `(p, q)` for every later
`q ≠ p`. -/
def addRow (p : String) (c : List ((String × String) × Nat)) :
    List String → List ((String × String) × Nat)
  | [] => c
  | q :: rest => addRow p (if p ≠ q then bump (p, q) 1 c else c) rest

/-- The double loop `for i ... for j ... if i < j and place1 != place2`. -/
def addPairs (c : List ((String × String) × Nat)) :
    List String → List ((String × String) × Nat)
  | [] => c
  | p :: rest => addPairs (addRow p c rest) rest

/-- `extract_place_connections` restricted to its `place_connections`
Counter (the coordinate and place-info tables feed rendering only). -/
def extract_place_connections (data : List Record) :
    List ((String × String) × Nat) :=
  data.foldl (fun c entry =>
    let c1 := addPairs c (current_letter_places entry)
    if truthy entry.sender_place && truthy entry.addressee_place
        && (getStr entry.sender_place ≠ getStr entry.addressee_place) then
      bump (getStr entry.sender_place, getStr entry.addressee_place) 2 c1
    else c1) []

example :
    extract_place_connections
      [{ sender_place := some "A", addressee_place := some "B",
         mentioned_places := [⟨some "C"⟩] }] =
      [(("A", "B"), 3), (("A", "C"), 1), (("B", "C"), 1)] := by decide

/-- Contribution of one row of the pairwise double loop to key `k`
(mirrors the recursion of `addRow`). -/
def rowContrib (p : String) (k : String × String) : List String → Nat
  | [] => 0
  | q :: rest => (if p ≠ q ∧ (p, q) = k then 1 else 0) + rowContrib p k rest

/-- Contribution of the whole double loop over list `ps` to key `k`. -/
def pairContrib : List String → (String × String) → Nat
  | [], _ => 0
  | p :: rest, k => rowContrib p k rest + pairContrib rest k

theorem cnt_addRow (p : String) (qs : List String)
    (c : List ((String × String) × Nat)) (k : String × String) :
    cnt (addRow p c qs) k = cnt c k + rowContrib p k qs := by
  induction qs generalizing c with
  | nil => simp [addRow, rowContrib]
  | cons q rest ih =>
    simp only [addRow, ih, rowContrib]
    by_cases hpq : p ≠ q
    · have hcond : (p ≠ q ∧ (p, q) = k) = ((p, q) = k) :=
        propext (and_iff_right hpq)
      simp only [if_pos hpq, cnt_bump, hcond]
      split_ifs <;> omega
    · simp [hpq]

theorem cnt_addPairs (ps : List String)
    (c : List ((String × String) × Nat)) (k : String × String) :
    cnt (addPairs c ps) k = cnt c k + pairContrib ps k := by
  induction ps generalizing c with
  | nil => simp [addPairs, pairContrib]
  | cons p rest ih =>
    simp only [addPairs, ih, cnt_addRow, pairContrib]
    omega

/-- Closed form of `rowContrib`: a row headed by `p` contributes to key
`k` once per occurrence of `k.2` among the later elements, exactly when
`k = (p, k.2)` with `k.2 ≠ p`. -/
theorem rowContrib_eq_count (p : String) (k : String × String) (qs : List String) :
    rowContrib p k qs = if k.1 = p ∧ k.2 ≠ p then qs.count k.2 else 0 := by
  obtain ⟨ka, kb⟩ := k
  induction qs with
  | nil => simp [rowContrib]
  | cons q rest ih =>
    simp only [rowContrib, ih, List.count_cons]
    split_ifs <;> (simp_all [Prod.mk.injEq, beq_iff_eq]; try omega)

/-- On a duplicate-free place list, the two orientations of an unordered
pair `{a, b}` together receive exactly one increment from the pairwise
double loop (on the orientation that lists the earlier element first). -/
theorem pairContrib_nodup {ps : List String} (hnd : ps.Nodup) {a b : String}
    (hab : a ≠ b) :
    pairContrib ps (a, b) + pairContrib ps (b, a) =
      if a ∈ ps ∧ b ∈ ps then 1 else 0 := by
  induction ps with
  | nil => simp [pairContrib]
  | cons p rest ih =>
    have hp : p ∉ rest := (List.nodup_cons.1 hnd).1
    have hrest : rest.Nodup := (List.nodup_cons.1 hnd).2
    have IH := ih hrest
    simp only [pairContrib, rowContrib_eq_count]
    by_cases hpa : a = p
    · subst hpa
      have hbp : b ≠ a := fun hh => hab hh.symm
      rw [if_pos ⟨rfl, hbp⟩, if_neg (fun hh => hh.2 rfl)]
      have hIH0 : pairContrib rest (a, b) + pairContrib rest (b, a) = 0 := by
        rw [IH, if_neg]
        rintro ⟨haa, -⟩
        exact hp haa
      by_cases hbr : b ∈ rest
      · have hcount : rest.count b = 1 := List.count_eq_one_of_mem hrest hbr
        rw [if_pos ⟨List.mem_cons_self a rest, List.mem_cons_of_mem a hbr⟩]
        omega
      · have hcount : rest.count b = 0 := List.count_eq_zero_of_not_mem hbr
        have hbn : b ∉ a :: rest := by
          intro hh
          rcases List.mem_cons.1 hh with hh | hh
          · exact hbp hh
          · exact hbr hh
        rw [if_neg (fun hh => hbn hh.2)]
        omega
    · by_cases hpb : b = p
      · subst hpb
        rw [if_neg (fun hh => hh.2 rfl), if_pos ⟨rfl, fun hh => hpa hh⟩]
        have hIH0 : pairContrib rest (a, b) + pairContrib rest (b, a) = 0 := by
          rw [IH, if_neg]
          rintro ⟨-, hbb⟩
          exact hp hbb
        by_cases har : a ∈ rest
        · have hcount : rest.count a = 1 := List.count_eq_one_of_mem hrest har
          rw [if_pos ⟨List.mem_cons_of_mem b har, List.mem_cons_self b rest⟩]
          omega
        · have hcount : rest.count a = 0 := List.count_eq_zero_of_not_mem har
          have han : a ∉ b :: rest := by
            intro hh
            rcases List.mem_cons.1 hh with hh | hh
            · exact hpa hh
            · exact har hh
          rw [if_neg (fun hh => han hh.1)]
          omega
      · rw [if_neg (fun hh => hpa hh.1), if_neg (fun hh => hpb hh.1)]
        have hmem : (a ∈ p :: rest ∧ b ∈ p :: rest) ↔ (a ∈ rest ∧ b ∈ rest) := by
          constructor
          · rintro ⟨ha, hb⟩
            refine ⟨?_, ?_⟩
            · rcases List.mem_cons.1 ha with hh | hh
              · exact absurd hh hpa
              · exact hh
            · rcases List.mem_cons.1 hb with hh | hh
              · exact absurd hh hpb
              · exact hh
          · rintro ⟨ha, hb⟩
            exact ⟨List.mem_cons_of_mem p ha, List.mem_cons_of_mem p hb⟩
        rw [if_congr hmem rfl rfl, ← IH]
        omega

/-! ### Commodity–place bipartite view (`extract_commodity_place_data`,
`comodity_analysis.py` 43–98, and the typed graph of
`show_commodity_network`, lines 107–119)

Note the code checks truthiness *before* stripping, so a whitespace-only
keyword or place survives the check and is stripped to the empty string,
which then becomes a node.  Python-set iteration order is unspecified;
the embedding fixes first-insertion order, and the theorems use only
membership and counts, which do not depend on that choice. -/

/-- `entry_commodities`: distinct stripped truthy keywords of one record. -/
def entry_commodities (entry : Record) : List String :=
  entry.keywords.foldl
    (fun s kw => if truthy kw then insertNode s (pyStrip (getStr kw)) else s) []

/-- `entry_places`: distinct stripped truthy mentioned-place names, then
sender place, then addressee place, of one record. -/
def entry_places (entry : Record) : List String :=
  let s0 := entry.mentioned_places.foldl
    (fun s p => if truthy p.name then insertNode s (pyStrip (getStr p.name)) else s) []
  let s1 := if truthy entry.sender_place then
    insertNode s0 (pyStrip (getStr entry.sender_place)) else s0
  if truthy entry.addressee_place then
    insertNode s1 (pyStrip (getStr entry.addressee_place)) else s1

/-- The accumulated `commodities` set across all records. -/
def commoditiesOf (data : List Record) : List String :=
  data.foldl (fun s entry => (entry_commodities entry).foldl insertNode s) []

/-- The accumulated `places` set across all records. -/
def placesOf (data : List Record) : List String :=
  data.foldl (fun s entry => (entry_places entry).foldl insertNode s) []

/-- The raw `edges` list: one `(commodity, place, 'commodity_place')`
triple appended per (commodity, place) combination of each record. -/
def rawEdges (data : List Record) : List (String × String × String) :=
  data.foldl (fun es entry =>
    es ++ (entry_commodities entry).flatMap
      (fun c => (entry_places entry).map (fun p => (c, p, "commodity_place")))) []

/-- The result of `extract_commodity_place_data`: edge Counter plus the
two node sets (`all_nodes` is their concatenation and is omitted). -/
structure CommodityData where
  edges : List ((String × String × String) × Nat)
  commodities : List String
  places : List String
  deriving DecidableEq, Repr

def extract_commodity_place_data (data : List Record) : CommodityData :=
  ⟨counterOf (rawEdges data), commoditiesOf data, placesOf data⟩

/-- The `node_type` attribute a node label ends up with in the graph of
`show_commodity_network`: commodities are added first with type
`commodity`, then places with type `place`, so a label occurring in both
sets is finally tagged `place`. -/
def node_type (cd : CommodityData) (x : String) : String :=
  if cd.places.contains x then "place" else "commodity"

example :
    extract_commodity_place_data
      [{ keywords := [some "Salt"], sender_place := some "Ruse" }] =
      ⟨[((("Salt", "Ruse", "commodity_place")), 1)], ["Salt"], ["Ruse"]⟩ := by
  decide

/-! ### Topic/keyword co-occurrence view (`extract_topics_keywords_data`,
`topics_keywords_analysis.py` 44–84)

The per-record `topics` set deduplicates, but the `all_topics` Counter
is incremented once per truthy *occurrence* in `main_topics` and
`keywords` (before deduplication). -/

/-- Process one list of topic strings, threading the per-record set and
the global Counter exactly as the `for topic in main_topics` /
`for keyword in keywords` loops do. -/
def addTopics (st : List String × List (String × Nat)) (items : List (Option String)) :
    List String × List (String × Nat) :=
  items.foldl (fun st it =>
    if truthy it then
      (insertNode st.1 (pyStrip (getStr it)), bump (pyStrip (getStr it)) 1 st.2)
    else st) st

/-- The per-record `topics` set (distinct stripped truthy entries of
`main_topics` then `keywords`). -/
def entry_topics (entry : Record) : List String :=
  (addTopics (addTopics ([], []) entry.main_topics) entry.keywords).1

/-- One iteration of the per-record loop of `extract_topics_keywords_data`:
update `letters_topics` (only when the record's topic set is non-empty)
and the `all_topics` Counter. -/
def step_topics (acc : List (List String) × List (String × Nat)) (entry : Record) :
    List (List String) × List (String × Nat) :=
  let st := addTopics (addTopics ([], acc.2) entry.main_topics) entry.keywords
  (if st.1 ≠ [] then acc.1 ++ [st.1] else acc.1, st.2)

/-- The `letters_topics` list: the topic set of every record having one. -/
def letters_topics (data : List Record) : List (List String) :=
  (data.foldl step_topics ([], [])).1

/-- The `all_topics` Counter: one increment per truthy occurrence. -/
def all_topics (data : List Record) : List (String × Nat) :=
  (data.foldl step_topics ([], [])).2

/-- Python's string `<`: lexicographic comparison by code point. -/
def charsLt : List Char → List Char → Bool
  | [], [] => false
  | [], _ :: _ => true
  | _ :: _, [] => false
  | c :: cs, d :: ds =>
    if c.toNat < d.toNat then true
    else if d.toNat < c.toNat then false
    else charsLt cs ds

def pyStrLt (a b : String) : Bool := charsLt a.data b.data

/-- Stable ascending insertion sort on strings (Python `sorted` on the
set's elements; elements are distinct so stability is irrelevant). -/
def insertStr (x : String) : List String → List String
  | [] => [x]
  | y :: rest => if pyStrLt x y then x :: y :: rest else y :: insertStr x rest

def sortStrs (l : List String) : List String :=
  l.foldl (fun acc x => insertStr x acc) []

/-- `itertools.combinations(l, 2)` in order. -/
def combinations2 : List String → List (String × String)
  | [] => []
  | a :: rest => rest.map (fun b => (a, b)) ++ combinations2 rest

/-- The `cooccurrence` Counter: for each record's topic set, `+1` for
every sorted pair. -/
def cooccurrenceOf (data : List Record) : List ((String × String) × Nat) :=
  (letters_topics data).foldl
    (fun c ts => (combinations2 (sortStrs ts)).foldl (fun c p => bump p 1 c) c) []

example :
    all_topics [{ main_topics := [some "A", some "A"], keywords := [some "A"] }] =
      [("A", 3)] := by decide

example :
    cooccurrenceOf [{ main_topics := [some "B", some "A"], keywords := [some "C"] }] =
      [(("A", "B"), 1), (("A", "C"), 1), (("B", "C"), 1)] := by decide

/-- The number of truthy occurrences in a record's `main_topics` and
`keywords` whose stripped value is `t`. -/
def occCount (entry : Record) (t : String) : Nat :=
  (entry.main_topics ++ entry.keywords).countP
    (fun it => truthy it && (pyStrip (getStr it) == t))

/-- The number of records whose (deduplicated) topic set contains `t` —
the quantity the specification calls the per-topic frequency. -/
def records_containing (data : List Record) (t : String) : Nat :=
  (data.filter (fun entry => (entry_topics entry).contains t)).length

/-! ### Shared structural lemmas -/

theorem totalDegree_pos_of_mem {es : List ((String × String) × Nat)}
    {e : (String × String) × Nat} (he : e ∈ es) :
    1 ≤ totalDegree es e.1.1 ∧ 1 ≤ totalDegree es e.1.2 := by
  constructor
  · have : 0 < es.countP (fun e' => e'.1.1 == e.1.1) :=
      List.countP_pos_iff.2 ⟨e, he, by simp⟩
    unfold totalDegree
    omega
  · have : 0 < es.countP (fun e' => e'.1.2 == e.1.2) :=
      List.countP_pos_iff.2 ⟨e, he, by simp⟩
    unfold totalDegree
    omega

/-- With a threshold of at most 1, the degree filter drops no edge (on a
graph whose edge endpoints are all listed as nodes), so it only restricts
the node list. -/
theorem degreeFilter_le_one (G : DiGraph) (b : Nat)
    (wf : ∀ e ∈ G.edges, e.1.1 ∈ G.nodes ∧ e.1.2 ∈ G.nodes) (hb : b ≤ 1) :
    degreeFilter G b =
      ⟨G.nodes.filter (fun x => b ≤ totalDegree G.edges x), G.edges⟩ := by
  unfold degreeFilter
  have hkeepmem : ∀ e ∈ G.edges,
      e.1.1 ∈ G.nodes.filter (fun x => b ≤ totalDegree G.edges x) ∧
      e.1.2 ∈ G.nodes.filter (fun x => b ≤ totalDegree G.edges x) := by
    intro e he
    have hdeg := totalDegree_pos_of_mem he
    refine ⟨List.mem_filter.2 ⟨(wf e he).1, ?_⟩, List.mem_filter.2 ⟨(wf e he).2, ?_⟩⟩
    · simpa using le_trans hb hdeg.1
    · simpa using le_trans hb hdeg.2
  have hedges : G.edges.filter (fun e =>
      (G.nodes.filter (fun x => b ≤ totalDegree G.edges x)).contains e.1.1 &&
      (G.nodes.filter (fun x => b ≤ totalDegree G.edges x)).contains e.1.2) = G.edges := by
    apply List.filter_eq_self.2
    intro e he
    have h := hkeepmem e he
    simp only [Bool.and_eq_true, List.elem_iff]
    exact ⟨h.1, h.2⟩
  simp only [hedges]

/-- Filtering an already-filtered node list with the same degree predicate
changes nothing. -/
theorem filter_keep_idem (ns : List String) (p : String → Bool) :
    (ns.filter p).filter p = ns.filter p := by
  apply List.filter_eq_self.2
  intro x hx
  exact (List.mem_filter.1 hx).2

/-- Every edge key of the correspondent `edge_weights` dict is the
verbatim `(sender_name, addressee_name)` pair of some record whose two
names are truthy. -/
theorem cew_key_prov {data : List Record} {c : List ((String × String) × Nat)}
    {e : (String × String) × Nat}
    (h : e ∈ data.foldl (fun ew entry =>
      if truthy entry.sender_name && truthy entry.addressee_name then
        bump (getStr entry.sender_name, getStr entry.addressee_name) 1 ew
      else ew) c) :
    e.1 ∈ c.map Prod.fst ∨ ∃ entry ∈ data, truthy entry.sender_name = true ∧
      truthy entry.addressee_name = true ∧
      e.1 = (getStr entry.sender_name, getStr entry.addressee_name) := by
  induction data generalizing c with
  | nil => exact Or.inl (List.mem_map_of_mem Prod.fst h)
  | cons entry rest ih =>
    simp only [List.foldl_cons] at h
    by_cases hc : truthy entry.sender_name && truthy entry.addressee_name
    · rw [if_pos hc] at h
      rcases ih h with h' | ⟨entry', he', h1, h2, h3⟩
      · rcases mem_map_fst_bump.1 h' with h₂ | h₂
        · right
          rcases Bool.and_eq_true_iff.1 hc with ⟨hs, ha⟩
          exact ⟨entry, List.mem_cons_self entry rest, hs, ha, h₂⟩
        · exact Or.inl h₂
      · exact Or.inr ⟨entry', List.mem_cons_of_mem entry he', h1, h2, h3⟩
    · rw [if_neg hc] at h
      rcases ih h with h' | ⟨entry', he', h1, h2, h3⟩
      · exact Or.inl h'
      · exact Or.inr ⟨entry', List.mem_cons_of_mem entry he', h1, h2, h3⟩

/-- Every letter produced by `extract_temporal_data` carries the stripped
truthy names of some record of the input. -/
theorem letter_prov {data : List Record} {l : Letter}
    (h : l ∈ extract_temporal_data data) :
    ∃ entry ∈ data, truthy entry.sender_name = true ∧
      truthy entry.addressee_name = true ∧
      l.sender = pyStrip (getStr entry.sender_name) ∧
      l.addressee = pyStrip (getStr entry.addressee_name) := by
  rw [extract_temporal_data, mem_sortByDate] at h
  suffices H : ∀ (rest : List Record) (acc : List Letter),
      l ∈ rest.foldl (fun ls entry =>
        if truthy entry.sender_name && truthy entry.addressee_name
            && truthy entry.sender_date then
          match strptimeFirst (getStr entry.sender_date) with
          | some d =>
              ls ++ [⟨pyStrip (getStr entry.sender_name),
                      pyStrip (getStr entry.addressee_name), d⟩]
          | none => ls
        else ls) acc →
      l ∈ acc ∨ ∃ entry ∈ rest, truthy entry.sender_name = true ∧
        truthy entry.addressee_name = true ∧
        l.sender = pyStrip (getStr entry.sender_name) ∧
        l.addressee = pyStrip (getStr entry.addressee_name) by
    rcases H data [] h with h' | h'
    · simp at h'
    · exact h'
  intro rest
  induction rest with
  | nil => intro acc h; exact Or.inl h
  | cons entry rest ih =>
    intro acc h
    simp only [List.foldl_cons] at h
    by_cases hc : truthy entry.sender_name && truthy entry.addressee_name
        && truthy entry.sender_date
    · rw [if_pos hc] at h
      rcases Bool.and_eq_true_iff.1 hc with ⟨hc', -⟩
      rcases Bool.and_eq_true_iff.1 hc' with ⟨hs, ha⟩
      rcases hd : strptimeFirst (getStr entry.sender_date) with - | d
      · rw [hd] at h
        rcases ih acc h with h' | ⟨e', he', hh⟩
        · exact Or.inl h'
        · exact Or.inr ⟨e', List.mem_cons_of_mem entry he', hh⟩
      · rw [hd] at h
        rcases ih _ h with h' | ⟨e', he', hh⟩
        · rcases List.mem_append.1 h' with h'' | h''
          · exact Or.inl h''
          · right
            refine ⟨entry, List.mem_cons_self entry rest, hs, ha, ?_⟩
            simp only [List.mem_singleton] at h''
            rw [h'']
            exact ⟨rfl, rfl⟩
        · exact Or.inr ⟨e', List.mem_cons_of_mem entry he', hh⟩
    · rw [if_neg hc] at h
      rcases ih acc h with h' | ⟨e', he', hh⟩
      · exact Or.inl h'
      · exact Or.inr ⟨e', List.mem_cons_of_mem entry he', hh⟩

theorem mem_foldl_insertNode {l s : List String} {x : String} :
    x ∈ l.foldl insertNode s ↔ x ∈ s ∨ x ∈ l := by
  induction l generalizing s with
  | nil => simp
  | cons y rest ih =>
    simp only [List.foldl_cons, ih, mem_insertNode, List.mem_cons]
    tauto

/-- Membership in a set accumulated by conditionally inserting the image
of each truthy item (the shape of all the per-record set loops). -/
theorem mem_foldl_insertIf {items : List (Option String)} {s0 : List String}
    {f : Option String → String} {x : String} :
    x ∈ items.foldl (fun s it => if truthy it then insertNode s (f it) else s) s0 ↔
      x ∈ s0 ∨ ∃ it ∈ items, truthy it = true ∧ x = f it := by
  induction items generalizing s0 with
  | nil => simp
  | cons it rest ih =>
    simp only [List.foldl_cons]
    by_cases hc : truthy it
    · rw [if_pos hc]
      rw [ih]
      simp only [mem_insertNode, List.mem_cons]
      constructor
      · rintro ((h | h) | ⟨it', hit', h1, h2⟩)
        · exact Or.inl h
        · exact Or.inr ⟨it, Or.inl rfl, hc, h⟩
        · exact Or.inr ⟨it', Or.inr hit', h1, h2⟩
      · rintro (h | ⟨it', (rfl | hit'), h1, h2⟩)
        · exact Or.inl (Or.inl h)
        · exact Or.inl (Or.inr h2)
        · exact Or.inr ⟨it', hit', h1, h2⟩
    · rw [if_neg hc]
      rw [ih]
      constructor
      · rintro (h | ⟨it', hit', h1, h2⟩)
        · exact Or.inl h
        · exact Or.inr ⟨it', List.mem_cons_of_mem it hit', h1, h2⟩
      · rintro (h | ⟨it', hit', h1, h2⟩)
        · exact Or.inl h
        · rcases List.mem_cons.1 hit' with rfl | hit''
          · rw [h1] at hc
            exact absurd rfl hc
          · exact Or.inr ⟨it', hit'', h1, h2⟩

theorem mem_entry_commodities {entry : Record} {x : String} :
    x ∈ entry_commodities entry ↔
      ∃ kw ∈ entry.keywords, truthy kw = true ∧ x = pyStrip (getStr kw) := by
  unfold entry_commodities
  have := @mem_foldl_insertIf entry.keywords [] (fun kw => pyStrip (getStr kw)) x
  simpa using this

/-- Membership in a set accumulated across records by inserting all the
elements of a per-record list. -/
theorem mem_foldl_insertAll {data : List Record} {g : Record → List String}
    {s : List String} {x : String} :
    x ∈ data.foldl (fun s entry => (g entry).foldl insertNode s) s ↔
      x ∈ s ∨ ∃ entry ∈ data, x ∈ g entry := by
  induction data generalizing s with
  | nil => simp
  | cons entry rest ih =>
    simp only [List.foldl_cons, ih, mem_foldl_insertNode, List.mem_cons]
    constructor
    · rintro ((h | h) | ⟨e', he', h⟩)
      · exact Or.inl h
      · exact Or.inr ⟨entry, Or.inl rfl, h⟩
      · exact Or.inr ⟨e', Or.inr he', h⟩
    · rintro (h | ⟨e', (rfl | he'), h⟩)
      · exact Or.inl (Or.inl h)
      · exact Or.inl (Or.inr h)
      · exact Or.inr ⟨e', he', h⟩

theorem mem_commoditiesOf {data : List Record} {x : String} :
    x ∈ commoditiesOf data ↔ ∃ entry ∈ data, x ∈ entry_commodities entry := by
  unfold commoditiesOf
  have := @mem_foldl_insertAll data entry_commodities [] x
  simpa using this

theorem mem_placesOf {data : List Record} {x : String} :
    x ∈ placesOf data ↔ ∃ entry ∈ data, x ∈ entry_places entry := by
  unfold placesOf
  have := @mem_foldl_insertAll data entry_places [] x
  simpa using this

/-- Every raw commodity–place edge pairs a commodity of some record with
a place of the same record, tagged `commodity_place`. -/
theorem mem_rawEdges {data : List Record} {e : String × String × String}
    (h : e ∈ rawEdges data) :
    ∃ entry ∈ data, e.1 ∈ entry_commodities entry ∧
      e.2.1 ∈ entry_places entry ∧ e.2.2 = "commodity_place" := by
  rw [rawEdges] at h
  suffices H : ∀ (rest : List Record) (acc : List (String × String × String)),
      e ∈ rest.foldl (fun es entry =>
        es ++ (entry_commodities entry).flatMap
          (fun c => (entry_places entry).map (fun p => (c, p, "commodity_place")))) acc →
      e ∈ acc ∨ ∃ entry ∈ rest, e.1 ∈ entry_commodities entry ∧
        e.2.1 ∈ entry_places entry ∧ e.2.2 = "commodity_place" by
    rcases H data [] h with h' | h'
    · simp at h'
    · exact h'
  intro rest
  induction rest with
  | nil => intro acc h; exact Or.inl h
  | cons entry rest ih =>
    intro acc h
    simp only [List.foldl_cons] at h
    rcases ih _ h with h' | ⟨e', he', hh⟩
    · rcases List.mem_append.1 h' with h'' | h''
      · exact Or.inl h''
      · right
        refine ⟨entry, List.mem_cons_self entry rest, ?_⟩
        rcases List.mem_flatMap.1 h'' with ⟨c, hc, hmap⟩
        rcases List.mem_map.1 hmap with ⟨p, hp, rfl⟩
        exact ⟨hc, hp, rfl⟩
    · exact Or.inr ⟨e', List.mem_cons_of_mem entry he', hh⟩

theorem cnt_addTopics (st : List String × List (String × Nat))
    (items : List (Option String)) (t : String) :
    cnt (addTopics st items).2 t =
      cnt st.2 t + items.countP (fun it => truthy it && (pyStrip (getStr it) == t)) := by
  induction items generalizing st with
  | nil => simp [addTopics]
  | cons it rest ih =>
    simp only [addTopics, List.foldl_cons] at ih ⊢
    by_cases hc : truthy it
    · rw [if_pos hc, ih]
      simp only [List.countP_cons, hc, Bool.true_and]
      by_cases ht : pyStrip (getStr it) = t
      · simp only [cnt_bump, ht, if_pos rfl, beq_self_eq_true, if_true]
        omega
      · have hbeq : (pyStrip (getStr it) == t) = false := by
          simp only [beq_eq_false_iff_ne, ne_eq]
          exact ht
        simp only [cnt_bump, if_neg ht, hbeq, Bool.false_eq_true, if_false]
        omega
    · rw [if_neg hc, ih]
      have : (truthy it && (pyStrip (getStr it) == t)) = false := by
        simp only [Bool.and_eq_false_iff]
        left
        exact Bool.eq_false_iff.2 hc
      simp [List.countP_cons, this]

theorem cnt_step_topics (acc : List (List String) × List (String × Nat))
    (entry : Record) (t : String) :
    cnt (step_topics acc entry).2 t = cnt acc.2 t + occCount entry t := by
  unfold step_topics occCount
  simp only [cnt_addTopics, List.countP_append]
  have : cnt (([] : List String), acc.2).2 t = cnt acc.2 t := rfl
  rw [this]
  omega

theorem cnt_all_topics_fold (data : List Record)
    (acc : List (List String) × List (String × Nat)) (t : String) :
    cnt (data.foldl step_topics acc).2 t =
      cnt acc.2 t + (data.map (fun e => occCount e t)).sum := by
  induction data generalizing acc with
  | nil => simp
  | cons entry rest ih =>
    simp only [List.foldl_cons, ih, cnt_step_topics, List.map_cons, List.sum_cons]
    omega

/-- The `all_topics` Counter counts truthy occurrences, record by record. -/
theorem cnt_all_topics (data : List Record) (t : String) :
    cnt (all_topics data) t = (data.map (fun e => occCount e t)).sum := by
  unfold all_topics
  rw [cnt_all_topics_fold]
  simp [cnt]

/-! ### Concrete record sets used by the claim theorems -/

def recAB : Record := { sender_name := some "A", addressee_name := some "B" }

def recBC : Record := { sender_name := some "B", addressee_name := some "C" }

def recXX : Record :=
  { sender_name := some "X", addressee_name := some "X",
    sender_date := some "01.01.1800" }

def recPadded : Record := { sender_name := some " X ", addressee_name := some "Y" }

def recWsKeyword : Record := { keywords := [some " "], sender_place := some "P" }

def recWsPlace : Record :=
  { sender_place := some " ", addressee_place := some "B" }

def recKwAplB : Record := { keywords := [some "A"], sender_place := some "B" }

def recKwBplC : Record := { keywords := [some "B"], sender_place := some "C" }

def recABA : Record :=
  { sender_place := some "A", addressee_place := some "B",
    mentioned_places := [⟨some "A"⟩] }

def recABC : Record :=
  { sender_place := some "A", addressee_place := some "B",
    mentioned_places := [⟨some "C"⟩] }

def recOnlySender : Record :=
  { sender_place := some "A", mentioned_places := [⟨some "C"⟩] }

def recEqPlaces : Record :=
  { sender_place := some "A", addressee_place := some "A",
    mentioned_places := [⟨some "C"⟩] }

def recTopicsAA : Record := { main_topics := [some "A", some "A"] }

def recYesterday : Record :=
  { sender_name := some "X", addressee_name := some "Y",
    sender_date := some "yesterday" }

def scenarioRecords : List Record :=
  [{ sender_name := some "X", addressee_name := some "Y",
     sender_date := some "01.01.1800" },
   { sender_name := some "X", addressee_name := some "Y",
     sender_date := some "15.01.1800" },
   { sender_name := some "Y", addressee_name := some "X",
     sender_date := some "10.02.1800" }]

/-! ### Claim C1 -/

/-- C1 fails as stated: the minimum-connections filter is a single pass,
so on the correspondent graph of `A→B, B→C` a threshold of 2 keeps only
`B` and drops both edges, and a second pass then drops `B` (its
recomputed degree is 0).  The double filter is not the single filter. -/
theorem C1_counterexample :
    degreeFilter (degreeFilter (correspondentGraph [recAB, recBC]) 2) 2 ≠
      degreeFilter (correspondentGraph [recAB, recBC]) 2 := by decide

/-- C1 amended: the degree filter is idempotent for thresholds at most 1
(in particular at the slider's default value 1), on any graph listing all
its edge endpoints as nodes; for larger thresholds a second application
can remove further nodes, as the counterexample shows. -/
theorem C1_amended_filter_idempotent_le_one (G : DiGraph) (b : Nat)
    (wf : ∀ e ∈ G.edges, e.1.1 ∈ G.nodes ∧ e.1.2 ∈ G.nodes) (hb : b ≤ 1) :
    degreeFilter (degreeFilter G b) b = degreeFilter G b := by
  have hkeep : ∀ e ∈ G.edges,
      e.1.1 ∈ G.nodes.filter (fun x => b ≤ totalDegree G.edges x) ∧
      e.1.2 ∈ G.nodes.filter (fun x => b ≤ totalDegree G.edges x) := by
    intro e he
    have hdeg := totalDegree_pos_of_mem he
    refine ⟨List.mem_filter.2 ⟨(wf e he).1, ?_⟩, List.mem_filter.2 ⟨(wf e he).2, ?_⟩⟩
    · simpa using le_trans hb hdeg.1
    · simpa using le_trans hb hdeg.2
  rw [degreeFilter_le_one G b wf hb]
  rw [degreeFilter_le_one ⟨G.nodes.filter (fun x => b ≤ totalDegree G.edges x), G.edges⟩
    b hkeep hb]
  show (⟨(G.nodes.filter (fun x => b ≤ totalDegree G.edges x)).filter
      (fun x => b ≤ totalDegree G.edges x), G.edges⟩ : DiGraph) = _
  rw [filter_keep_idem]

theorem C1_witness :
    degreeFilter (degreeFilter (correspondentGraph [recAB, recBC]) 1) 1 =
      degreeFilter (correspondentGraph [recAB, recBC]) 1 :=
  C1_amended_filter_idempotent_le_one (correspondentGraph [recAB, recBC]) 1
    (by decide) (by decide)

/-! ### Claim C2 -/

/-- C2 fails as stated: `extract_place_connections` walks the per-record
place *list* without deduplication and keys the Counter by *ordered*
pairs.  For a record with sender place `A`, addressee place `B` and
mentioned place `A`, the pair `{A, B}` receives two generic increments
(one per index pair), split over the two distinct keys `(A, B)` and
`(B, A)` — so the total is 4 (2 generic + 2 direct) rather than the
claimed single edge of 3, and neither orientation is absent. -/
theorem C2_counterexample :
    ¬ (cnt (extract_place_connections [recABA]) ("A", "B") +
         cnt (extract_place_connections [recABA]) ("B", "A") = 3 ∧
       (cnt (extract_place_connections [recABA]) ("A", "B") = 0 ∨
        cnt (extract_place_connections [recABA]) ("B", "A") = 0)) := by decide

/-- C2 amended: the generic pairwise loop (`addPairs`, the inner double
loop of `extract_place_connections`) gives each unordered pair of
distinct places exactly one `+1` — on the single ordered key listing the
earlier element first — *provided* the per-record place list has no
duplicates; duplicated occurrences yield extra increments and the two
orientations are separate Counter keys. -/
theorem C2_amended_pairwise_nodup (ps : List String) (a b : String)
    (hnd : ps.Nodup) (hab : a ≠ b) :
    cnt (addPairs [] ps) (a, b) + cnt (addPairs [] ps) (b, a) =
      if a ∈ ps ∧ b ∈ ps then 1 else 0 := by
  rw [cnt_addPairs, cnt_addPairs]
  simp only [cnt]
  rw [Nat.zero_add, Nat.zero_add]
  exact pairContrib_nodup hnd hab

theorem C2_witness :
    cnt (addPairs [] ["A", "B", "C"]) ("A", "B") +
      cnt (addPairs [] ["A", "B", "C"]) ("B", "A") = 1 := by
  have h := C2_amended_pairwise_nodup ["A", "B", "C"] "A" "B"
    (by decide) (by decide)
  simpa using h

/-! ### Claim C3 -/

/-- C3 fails as stated: a record whose sender name equals its addressee
name passes the truthiness guard and produces the self-loop `X→X`, both
in the correspondent view and (when its date parses and falls in the
window) in the temporal windowed view. -/
theorem C3_counterexample :
    ¬ (((correspondentGraph [recXX]).edges.all (fun e => e.1.1 != e.1.2) = true) ∧
       ((windowed_graph (extract_temporal_data [recXX])
          ⟨1800, 1, 1⟩ 20).edges.all (fun e => e.1.1 != e.1.2) = true)) := by decide

/-- C3 amended: the two directed views create a self-loop exactly from
records whose sender and addressee names coincide; whenever every record
with truthy names has distinct names (verbatim for the correspondent
view, stripped for the temporal view), neither graph contains an edge
whose endpoints are equal. -/
theorem C3_amended_no_self_loops (data : List Record) (center : Date) (w : Nat)
    (h : ∀ entry ∈ data, truthy entry.sender_name = true →
      truthy entry.addressee_name = true →
      getStr entry.sender_name ≠ getStr entry.addressee_name ∧
      pyStrip (getStr entry.sender_name) ≠ pyStrip (getStr entry.addressee_name)) :
    ((correspondentGraph data).edges.all (fun e => e.1.1 != e.1.2) = true) ∧
    ((windowed_graph (extract_temporal_data data) center w).edges.all
      (fun e => e.1.1 != e.1.2) = true) := by
  constructor
  · rw [List.all_eq_true]
    intro e he
    have he' : e ∈ data.foldl (fun ew entry =>
        if truthy entry.sender_name && truthy entry.addressee_name then
          bump (getStr entry.sender_name, getStr entry.addressee_name) 1 ew
        else ew) [] := he
    rcases cew_key_prov he' with h' | ⟨entry, hm, hs, ha, hkey⟩
    · simp at h'
    · have hne := (h entry hm hs ha).1
      simp only [bne_iff_ne, ne_eq]
      intro heq
      apply hne
      have h1 : e.1.1 = getStr entry.sender_name := by rw [hkey]
      have h2 : e.1.2 = getStr entry.addressee_name := by rw [hkey]
      rw [← h1, ← h2, heq]
  · rw [List.all_eq_true]
    intro e he
    have he' : e ∈ ((windowed_letters (extract_temporal_data data) center w).map
        (fun l => (l.sender, l.addressee))).foldl (fun c x => bump x 1 c) [] := he
    rcases fst_mem_counterOf_fold he' with h' | h'
    · rcases List.mem_map.1 h' with ⟨l, hl, hfl⟩
      have hl' : l ∈ extract_temporal_data data :=
        List.mem_filter.1 hl |>.1
      rcases letter_prov hl' with ⟨entry, hm, hs, ha, hsn, han⟩
      have hne := (h entry hm hs ha).2
      simp only [bne_iff_ne, ne_eq]
      intro heq
      apply hne
      have h1 : e.1.1 = l.sender := by rw [← hfl]
      have h2 : e.1.2 = l.addressee := by rw [← hfl]
      rw [← hsn, ← han, ← h1, ← h2, heq]
    · simp at h'

theorem C3_witness :
    (((correspondentGraph [recAB, recBC]).edges.all
        (fun e => e.1.1 != e.1.2)) = true) ∧
    (((windowed_graph (extract_temporal_data [recAB, recBC])
        ⟨1800, 1, 1⟩ 20).edges.all (fun e => e.1.1 != e.1.2)) = true) :=
  C3_amended_no_self_loops [recAB, recBC] ⟨1800, 1, 1⟩ 20 (by decide)

/-! ### Claim C4 -/

/-- C4 fails as stated: the correspondent view uses names verbatim (no
trimming — `" X "` becomes a node), the geographic view likewise keys
its Counter by untrimmed places (`" "` is a node label), and the
commodity view checks truthiness *before* stripping, so a
whitespace-only keyword becomes the empty-string node instead of being
discarded. -/
theorem C4_counterexample :
    ¬ (((correspondentGraph [recPadded]).nodes.all (fun x => pyStrip x == x) = true) ∧
       ((extract_commodity_place_data [recWsKeyword]).commodities.all
          (fun x => x != "") = true) ∧
       (((extract_place_connections [recWsPlace]).map Prod.fst).all
          (fun k => pyStrip k.1 == k.1) = true)) := by decide

/-- The verbatim name labels the correspondent view can produce: both
names of a record whose two names are truthy, untrimmed. -/
def verbatimNames (data : List Record) : List String :=
  data.flatMap (fun e =>
    if truthy e.sender_name && truthy e.addressee_name then
      [getStr e.sender_name, getStr e.addressee_name]
    else [])

/-- The labels the commodity extractor can produce from keywords: the
stripped value of every truthy keyword (possibly the empty string). -/
def trimmedKeywords (data : List Record) : List String :=
  data.flatMap (fun e =>
    e.keywords.filterMap (fun kw =>
      if truthy kw then some (pyStrip (getStr kw)) else none))

/-- C4 amended: only falsy (missing or empty) strings are discarded; a
correspondent node label is the verbatim (untrimmed) truthy name of some
record, and a commodity node label is the stripped value of some truthy
keyword — which is the empty string when the keyword was whitespace-only,
since the truthiness check happens before stripping. -/
theorem C4_amended_label_provenance :
    (∀ (data : List Record) (x : String),
      x ∈ (correspondentGraph data).nodes → x ∈ verbatimNames data) ∧
    (∀ (data : List Record) (x : String),
      x ∈ (extract_commodity_place_data data).commodities →
        x ∈ trimmedKeywords data) := by
  constructor
  · intro data x hx
    rcases mem_nodesOf.1 hx with ⟨e, he, hor⟩
    have he' : e ∈ data.foldl (fun ew entry =>
        if truthy entry.sender_name && truthy entry.addressee_name then
          bump (getStr entry.sender_name, getStr entry.addressee_name) 1 ew
        else ew) [] := he
    rcases cew_key_prov he' with h' | ⟨entry, hm, hs, ha, hkey⟩
    · simp at h'
    · apply List.mem_flatMap.2
      refine ⟨entry, hm, ?_⟩
      rw [if_pos (by rw [hs, ha]; rfl)]
      rcases hor with hor | hor
      · rw [hor, hkey]
        exact List.mem_cons_self _ _
      · rw [hor, hkey]
        exact List.mem_cons_of_mem _ (List.mem_cons_self _ _)
  · intro data x hx
    rcases mem_commoditiesOf.1 hx with ⟨entry, hm, hc⟩
    rcases mem_entry_commodities.1 hc with ⟨kw, hkw, ht, hv⟩
    apply List.mem_flatMap.2
    refine ⟨entry, hm, ?_⟩
    apply List.mem_filterMap.2
    refine ⟨kw, hkw, ?_⟩
    rw [if_pos ht, hv]

theorem C4_witness :
    " X " ∈ verbatimNames [recPadded] ∧ "" ∈ trimmedKeywords [recWsKeyword] :=
  ⟨C4_amended_label_provenance.1 [recPadded] " X " (by decide),
   C4_amended_label_provenance.2 [recWsKeyword] "" (by decide)⟩

/-! ### Claim C5 -/

/-- C5 fails as stated: in `show_commodity_network` the commodity nodes
are added first and the place nodes afterwards, overwriting the
`node_type`; a string occurring both as a keyword and as a place ends up
tagged `place`, so an edge from it (as a commodity) to a place joins two
`place`-tagged nodes.  With records `keywords=["A"], sender_place="B"`
and `keywords=["B"], sender_place="C"`, the edge `(B, C)` joins two
nodes tagged `place`. -/
theorem C5_counterexample :
    ¬ ((extract_commodity_place_data [recKwAplB, recKwBplC]).edges.all
        (fun e =>
          node_type (extract_commodity_place_data [recKwAplB, recKwBplC]) e.1.1 !=
          node_type (extract_commodity_place_data [recKwAplB, recKwBplC]) e.1.2.1)
        = true) := by decide

/-- C5 amended: the bipartite invariant holds exactly when no label
occurs both as a commodity and as a place: under that disjointness every
edge of the extractor joins a `commodity`-tagged node to a
`place`-tagged node. -/
theorem C5_amended_bipartite_disjoint (data : List Record)
    (hdisj : ∀ x, x ∈ commoditiesOf data → x ∉ placesOf data) :
    (extract_commodity_place_data data).edges.all
      (fun e =>
        node_type (extract_commodity_place_data data) e.1.1 !=
        node_type (extract_commodity_place_data data) e.1.2.1) = true := by
  rw [List.all_eq_true]
  intro e he
  have he' : e ∈ (rawEdges data).foldl (fun c x => bump x 1 c) [] := he
  rcases fst_mem_counterOf_fold he' with h' | h'
  · rcases mem_rawEdges h' with ⟨entry, hm, hc, hp, -⟩
    have hcm : e.1.1 ∈ commoditiesOf data := mem_commoditiesOf.2 ⟨entry, hm, hc⟩
    have hpm : e.1.2.1 ∈ placesOf data := mem_placesOf.2 ⟨entry, hm, hp⟩
    have h1 : node_type (extract_commodity_place_data data) e.1.1 = "commodity" := by
      simp [node_type, extract_commodity_place_data, hdisj _ hcm]
    have h2 : node_type (extract_commodity_place_data data) e.1.2.1 = "place" := by
      simp [node_type, extract_commodity_place_data, hpm]
    rw [h1, h2]
    decide
  · simp at h'

theorem C5_witness :
    (node_type (extract_commodity_place_data [recKwAplB]) "A" !=
      node_type (extract_commodity_place_data [recKwAplB]) "B") = true := by
  have h := C5_amended_bipartite_disjoint [recKwAplB] (by decide)
  rw [List.all_eq_true] at h
  exact h (("A", "B", "commodity_place"), 1) (by decide)

/-! ### Claim C6 -/

/-- Counter lookup as a filter length. -/
theorem cnt_counterOf_length [DecidableEq α] (xs : List α) (k : α) :
    cnt (counterOf xs) k = (xs.filter (fun x => x = k)).length := by
  rw [cnt_counterOf, List.count_eq_countP, List.countP_eq_length_filter]
  rfl

/-- C6 confirmed: the weight of each directed edge of the temporal
windowed graph is exactly the number of letters in the closed window
`[center − w/2, center + w/2]` with that (sender, addressee) pair, and
the three-record scenario with a window of 20 days centered on
10.01.1800 keeps only the first two records, giving the single edge
`X→Y` of weight 2. -/
theorem C6_window_semantics :
    (∀ (letters : List Letter) (center : Date) (w : Nat) (a b : String),
      cnt (windowed_graph letters center w).edges (a, b) =
        ((windowed_letters letters center w).filter
          (fun l => (l.sender, l.addressee) = (a, b))).length) ∧
    windowed_graph (extract_temporal_data scenarioRecords) ⟨1800, 1, 10⟩ 20 =
      ⟨["X", "Y"], [(("X", "Y"), 2)]⟩ := by
  constructor
  · intro letters center w a b
    rw [show cnt (windowed_graph letters center w).edges (a, b) =
      cnt (counterOf ((windowed_letters letters center w).map
        (fun l => (l.sender, l.addressee)))) (a, b) from rfl,
      cnt_counterOf_length, List.filter_map, List.length_map]
    rfl
  · decide

/-! ### Claim C7 -/

/-- C7 confirmed: the date loop strips the input and tries
`%d.%m.%Y`, `%d/%m/%Y`, `%Y-%m-%d`, `%d-%m-%Y` in order, returning the
first successful parse (`10-02-1800` falls through the failing
`%Y-%m-%d` to `%d-%m-%Y`); an unparseable date (`"yesterday"`) silently
excludes the record from the letters list — hence from the timeline and
every windowed graph — while the correspondent view still counts the
same record, whose sender and addressee names are truthy. -/
theorem C7_date_normalizer :
    strptimeFirst "01.01.1800" = some ⟨1800, 1, 1⟩ ∧
    strptimeFirst "01/01/1800" = some ⟨1800, 1, 1⟩ ∧
    strptimeFirst "1800-01-01" = some ⟨1800, 1, 1⟩ ∧
    strptimeFirst "01-01-1800" = some ⟨1800, 1, 1⟩ ∧
    strptimeFirst " 01.01.1800 " = some ⟨1800, 1, 1⟩ ∧
    strptimeFirst "10-02-1800" = some ⟨1800, 2, 10⟩ ∧
    strptimeFirst "yesterday" = none ∧
    extract_temporal_data [recYesterday] = [] ∧
    windowed_graph (extract_temporal_data [recYesterday]) ⟨1800, 1, 1⟩ 20 =
      ⟨[], []⟩ ∧
    correspondent_edge_weights [recYesterday] = [(("X", "Y"), 1)] := by decide

/-! ### Claim C8 -/

/-- C8 confirmed: for a record with sender place `A`, addressee place
`B` and mentioned place `C`, the geographic extractor yields `(A,B)`
weight 3 (1 generic + 2 direct, added on top of each other), `(A,C)`
weight 1 and `(B,C)` weight 1; the `+2` bonus is absent when the
addressee place is missing or when the two places coincide. -/
theorem C8_geo_direct_bonus :
    extract_place_connections [recABC] =
      [(("A", "B"), 3), (("A", "C"), 1), (("B", "C"), 1)] ∧
    extract_place_connections [recOnlySender] = [(("A", "C"), 1)] ∧
    extract_place_connections [recEqPlaces] = [(("A", "C"), 2)] := by decide

/-! ### Claim C9 -/

/-- C9 fails as stated: `all_topics` is incremented once per truthy
*occurrence*, not once per record; a single record with
`main_topics = ["A", "A"]` reports frequency 2 for `A` although only one
record contains the topic. -/
theorem C9_counterexample :
    ¬ (cnt (all_topics [recTopicsAA]) "A" =
        records_containing [recTopicsAA] "A") := by decide

/-- C9 amended: the per-topic frequency reported by the extractor equals
the total number of truthy occurrences of the topic (after stripping)
across every record's `main_topics` and `keywords` lists — duplicates
within one record each count. -/
theorem C9_amended_topic_frequency_occurrences (data : List Record) (t : String) :
    cnt (all_topics data) t = (data.map (fun e => occCount e t)).sum :=
  cnt_all_topics data t

/-! ### Claim C10 -/

/-- C10 confirmed: the correspondent graph only acquires nodes through
`add_edge`, so every node is an endpoint of at least one edge and has
total degree at least 1; consequently the minimum-connections filter at
the default threshold 1 keeps every node and every edge. -/
theorem C10_no_isolated_nodes (data : List Record) :
    ((correspondentGraph data).nodes.all
      (fun x => 1 ≤ totalDegree (correspondentGraph data).edges x) = true) ∧
    degreeFilter (correspondentGraph data) 1 = correspondentGraph data := by
  have hdeg : ∀ x ∈ nodesOf (correspondent_edge_weights data),
      1 ≤ totalDegree (correspondent_edge_weights data) x := by
    intro x hx
    rcases mem_nodesOf.1 hx with ⟨e, he, hor | hor⟩
    · exact hor ▸ (totalDegree_pos_of_mem he).1
    · exact hor ▸ (totalDegree_pos_of_mem he).2
  constructor
  · rw [List.all_eq_true]
    intro x hx
    simpa using hdeg x hx
  · have wf : ∀ e ∈ (correspondentGraph data).edges,
        e.1.1 ∈ (correspondentGraph data).nodes ∧
        e.1.2 ∈ (correspondentGraph data).nodes := by
      intro e he
      exact ⟨mem_nodesOf.2 ⟨e, he, Or.inl rfl⟩, mem_nodesOf.2 ⟨e, he, Or.inr rfl⟩⟩
    rw [degreeFilter_le_one _ 1 wf (le_refl 1)]
    have hfull : (nodesOf (correspondent_edge_weights data)).filter
        (fun x => 1 ≤ totalDegree (correspondent_edge_weights data) x) =
        nodesOf (correspondent_edge_weights data) := by
      apply List.filter_eq_self.2
      intro x hx
      simpa using hdeg x hx
    show (⟨(nodesOf (correspondent_edge_weights data)).filter
        (fun x => 1 ≤ totalDegree (correspondent_edge_weights data) x),
        correspondent_edge_weights data⟩ : DiGraph) = _
    rw [hfull]
    rfl
